import Mathlib

/-!
# Tarot card wheel (`src/TarotCards.js`)

A shallow embedding of the numeric core of the tarot wheel: the constants
derived from the card count and the window width, the derived values
`angle`, `interpolatedIndex` and `activeIndex` of `TarotWheel`, the pan
gesture callbacks, and the selection state of `TarotCards`.

The index geometry (`angle`, `interpolatedIndex`, `activeIndex`, the spring
target) is read in exact arithmetic: JavaScript numbers are elements of a
linearly ordered field `K` with a floor function (`ℚ` to evaluate, `ℝ` for
real arithmetic).  Two values come from the runtime and not from the
repository, and are parameters of every such definition: `PI` stands for
`Math.PI` and `width` for `Dimensions.get('window').width`.

The accumulation of drag deltas in `onChange` depends on the rounding of each
operation, so the section `Binary64` reads the same source lines on IEEE-754
doubles, every operation rounded to the nearest double.
-/

set_option linter.unusedSectionVars false

namespace TarotCards

variable {K : Type*} [LinearOrderedField K] [FloorRing K]

/-! ## JavaScript primitives used by the source -/

/-- Truncation toward zero, the integer quotient behind JavaScript's `%`. -/
def jsTrunc (x : K) : ℤ := if 0 ≤ x then ⌊x⌋ else ⌈x⌉

/-- JavaScript `a % b` on numbers: the remainder of the division truncated
toward zero, so the result takes the sign of the dividend `a`. -/
def jsRem (a b : K) : K := a - b * (jsTrunc (a / b) : K)

/-- JavaScript `Math.round`: the nearest integer, halves going up. -/
def mathRound (x : K) : ℤ := ⌊x + 1 / 2⌋

/-- Reanimated `interpolate(x, [x0, x1], [y0, y1])` on one segment. -/
def interpolate (x x0 x1 y0 y1 : K) : K := y0 + (x - x0) * (y1 - y0) / (x1 - x0)

/-! ## Module constants -/

/-- Source: `const numberOfCards = 30`. -/
def numberOfCards : ℕ := 30

/-- Source: `const minSize = 120`. -/
def minSize : K := 120

/-- Source: `tarotCardSize.width`, which is `minSize`. -/
def tarotCardWidth : K := minSize

/-- Source: `const TWO_PI = 2 * Math.PI`. -/
def TWO_PI (PI : K) : K := 2 * PI

/-- Source: `const theta = TWO_PI / numberOfCards`. -/
def theta (PI : K) : K := TWO_PI PI / (numberOfCards : K)

/-- Source: `const tarotCardSizeVisiblePercentage = 0.9`. -/
def tarotCardSizeVisiblePercentage : K := 0.9

/-- Source: `const tarotCardSizeOnCircle = tarotCardSizeVisiblePercentage * tarotCardSize.width`. -/
def tarotCardSizeOnCircle : K := tarotCardSizeVisiblePercentage * tarotCardWidth

/-- Source: `const circleRadius = Math.max((tarotCardSizeOnCircle * numberOfCards) / TWO_PI, width)`. -/
def circleRadius (PI width : K) : K :=
  max ((tarotCardSizeOnCircle * (numberOfCards : K)) / TWO_PI PI) width

/-- Source: `const circleCircumference = TWO_PI * circleRadius`. -/
def circleCircumference (PI width : K) : K := TWO_PI PI * circleRadius PI width

/-! ## Derived values of `TarotWheel` -/

/-- Source: `angle = distance.value / circleCircumference`. -/
def angle (PI width distance : K) : K := distance / circleCircumference PI width

/-- The body of the `interpolatedIndex` derived value, as a function of `angle.value`. -/
def interpolatedIndex (PI a : K) : K :=
  let x := |jsRem a (TWO_PI PI) / theta PI|
  if a < 0 then x else (numberOfCards : K) - x

/-- Source: `activeIndex = Math.round(interpolatedIndex.value)`, as a function of `distance.value`. -/
def activeIndex (PI width distance : K) : ℤ :=
  mathRound (interpolatedIndex PI (angle PI width distance))

/-! ## Rotations applied by the styles -/

/-- The `rotate` of `wheelStyle`, in radians. -/
def wheelRotate (PI width distance : K) : K := angle PI width distance

/-- The `rotate` of `cardStyle`, in radians, for a card at `cardIndex` and the
current value of `mounted`. -/
def cardRotate (PI mounted : K) (cardIndex : ℕ) : K :=
  interpolate mounted 0 1 0 (theta PI * (cardIndex : K))

/-! ## Pan gesture -/

/-- The value handed to `withSpring` by the decay callback. -/
def snapTarget (PI width distance : K) : K :=
  -(activeIndex PI width distance : K) * theta PI * circleCircumference PI width

/-- What the completion callback of `withDecay` does: the target it gives to
`withSpring` and the arguments of its `onCardChange` calls, in order. -/
structure Settle (K : Type*) where
  springTo : K
  cardChanges : List ℤ

/-- The callback passed to `withDecay`, run with `distance.value` at `distance`. -/
def decayCallback (PI width distance : K) : Settle K :=
  { springTo := snapTarget PI width distance
    cardChanges := [activeIndex PI width distance] }

/-- The `onFinalize` callback of the pan gesture.  `decayRest` is the value of
`distance` at which the decay animation of the library completes; the result is
`none` when the callback returns early. -/
def onFinalize (PI width : K) (isFlippable : Bool) (decayRest : K) : Option (Settle K) :=
  if isFlippable then none else some (decayCallback PI width decayRest)

/-! ## Selection state of `TarotCards` -/

/-- The two `useState` cells of `TarotCards`. -/
structure Selection where
  isFlippable : Bool
  activeCardIndex : Option ℤ
deriving DecidableEq

/-- Source: `useState(null)` and `useState(false)`. -/
def Selection.initial : Selection := { isFlippable := false, activeCardIndex := none }

/-- Source: `handleCardSelect(cardIndex)`: the two state updates (the timer is separate). -/
def handleCardSelect (cardIndex : ℤ) (_s : Selection) : Selection :=
  { isFlippable := true, activeCardIndex := some cardIndex }

/-- Source: `resetWheel()`, which the timer of `handleCardSelect` runs after 1000 ms. -/
def resetWheel (_s : Selection) : Selection :=
  { isFlippable := false, activeCardIndex := none }

/-- The `onCardChange` prop given to `TarotWheel`. -/
def onCardChange (cardIndex : ℤ) (s : Selection) : Selection :=
  { s with activeCardIndex := some cardIndex }

/-- The `isFlipped` prop of the card at `cardIndex`:
`isFlippable && activeCardIndex === cardIndex`. -/
def isFlipped (s : Selection) (cardIndex : ℤ) : Bool :=
  s.isFlippable && decide (s.activeCardIndex = some cardIndex)

/-! ## Binary64 arithmetic of the drag accumulation

The statement `distance.value += ev.changeX * changeFactor` works on IEEE-754
doubles, and whether a drag and its opposite cancel depends on the rounding of
each operation.  This section reads the source lines involved with every
arithmetic operation rounded to the nearest double, ties to even.  A double is
represented by the rational number it denotes.  The exponent range is not
bounded: the model agrees with binary64 wherever no operation overflows or
underflows. -/

namespace Binary64

/-- Round to the nearest integer, a tie going to the even neighbour. -/
def roundTiesEven (x : ℚ) : ℤ :=
  if Int.fract x < 1 / 2 then ⌊x⌋
  else if 1 / 2 < Int.fract x then ⌊x⌋ + 1
  else if ⌊x⌋ % 2 = 0 then ⌊x⌋ else ⌊x⌋ + 1

/-- The spacing of the doubles around a nonzero `x`: `2 ^ (e - 52)` where
`2 ^ e ≤ |x| < 2 ^ (e + 1)`, so that a double there is a 53-bit integer times
the spacing. -/
def ulp (x : ℚ) : ℚ := (2 : ℚ) ^ (Int.log 2 |x| - 52)

/-- The double nearest to `x`, a tie going to the even mantissa: the result
of every JavaScript arithmetic operation whose exact result is `x`. -/
def toDouble (x : ℚ) : ℚ :=
  if x = 0 then 0 else (roundTiesEven (x / ulp x) : ℚ) * ulp x

/-- The double `Math.PI`, `0x400921FB54442D18`. -/
def PI : ℚ := 884279719003555 / 281474976710656

/-- Source: `const TWO_PI = 2 * Math.PI`. -/
def TWO_PI : ℚ := toDouble (2 * PI)

/-- Source: `const theta = TWO_PI / numberOfCards`. -/
def theta : ℚ := toDouble (TWO_PI / (numberOfCards : ℚ))

/-- Source: `const tarotCardSizeVisiblePercentage = 0.9`, the double nearest to `0.9`. -/
def tarotCardSizeVisiblePercentage : ℚ := toDouble (9 / 10)

/-- Source: `const tarotCardSizeOnCircle = tarotCardSizeVisiblePercentage * tarotCardSize.width`. -/
def tarotCardSizeOnCircle : ℚ := toDouble (tarotCardSizeVisiblePercentage * tarotCardWidth)

/-- Source: `const circleRadius = Math.max((tarotCardSizeOnCircle * numberOfCards) / TWO_PI, width)`. -/
def circleRadius (width : ℚ) : ℚ :=
  max (toDouble (toDouble (tarotCardSizeOnCircle * (numberOfCards : ℚ)) / TWO_PI)) width

/-- Source: `const circleCircumference = TWO_PI * circleRadius`. -/
def circleCircumference (width : ℚ) : ℚ := toDouble (TWO_PI * circleRadius width)

/-- Source: `const changeFactor = circleCircumference / width`. -/
def changeFactor (width : ℚ) : ℚ := toDouble (circleCircumference width / width)

/-- Source: `angle = distance.value / circleCircumference`. -/
def angle (width distance : ℚ) : ℚ := toDouble (distance / circleCircumference width)

/-- The body of the `interpolatedIndex` derived value, as a function of
`angle.value`; the remainder of two doubles is a double and is not rounded. -/
def interpolatedIndex (a : ℚ) : ℚ :=
  let x := |toDouble (jsRem a TWO_PI / theta)|
  if a < 0 then x else toDouble ((numberOfCards : ℚ) - x)

/-- Source: `activeIndex = Math.round(interpolatedIndex.value)`, as a function of `distance.value`. -/
def activeIndex (width distance : ℚ) : ℤ :=
  mathRound (interpolatedIndex (angle width distance))

/-- The `onChange` callback of the pan gesture, as a function of `ev.changeX`
and the current `distance.value`: `distance.value += ev.changeX * changeFactor`
unless the wheel is locked. -/
def onChange (width : ℚ) (isFlippable : Bool) (changeX distance : ℚ) : ℚ :=
  if isFlippable then distance
  else toDouble (distance + toDouble (changeX * changeFactor width))

end Binary64

/-! ## Basic facts about the constants -/

theorem TWO_PI_pos {PI : K} (hPI : 0 < PI) : 0 < TWO_PI PI := by
  unfold TWO_PI
  linarith

theorem theta_pos {PI : K} (hPI : 0 < PI) : 0 < theta PI := by
  unfold theta numberOfCards
  exact div_pos (TWO_PI_pos hPI) (by norm_num)

theorem theta_mul_cards (PI : K) : theta PI * 30 = TWO_PI PI := by
  unfold theta numberOfCards
  norm_num

theorem circleRadius_pos {PI : K} (hPI : 0 < PI) (width : K) : 0 < circleRadius PI width := by
  unfold circleRadius
  refine lt_of_lt_of_le ?_ (le_max_left _ _)
  refine div_pos ?_ (TWO_PI_pos hPI)
  norm_num [tarotCardSizeOnCircle, tarotCardSizeVisiblePercentage, tarotCardWidth, minSize,
    numberOfCards]

theorem circleCircumference_pos {PI : K} (hPI : 0 < PI) (width : K) :
    0 < circleCircumference PI width :=
  mul_pos (TWO_PI_pos hPI) (circleRadius_pos hPI width)

theorem angle_mul_circumference {PI : K} (hPI : 0 < PI) (width d : K) :
    angle PI width d * circleCircumference PI width = d := by
  unfold angle
  exact div_mul_cancel₀ d (circleCircumference_pos hPI width).ne.symm

theorem angle_of_mul_circumference {PI : K} (hPI : 0 < PI) (width a : K) :
    angle PI width (a * circleCircumference PI width) = a := by
  unfold angle
  exact mul_div_cancel_right₀ a (circleCircumference_pos hPI width).ne.symm

/-! ## The remainder and the rounding -/

theorem jsRem_of_nonneg {a b : K} (hb : 0 < b) (ha : 0 ≤ a) :
    jsRem a b = b * Int.fract (a / b) := by
  have h : 0 ≤ a / b := div_nonneg ha hb.le
  unfold jsRem jsTrunc
  rw [if_pos h, ← Int.self_sub_floor, mul_sub, mul_div_cancel₀ a hb.ne.symm]

theorem jsRem_of_neg {a b : K} (hb : 0 < b) (ha : a < 0) :
    jsRem a b = -(b * Int.fract (-a / b)) := by
  have h : ¬ 0 ≤ a / b := not_le.mpr (div_neg_of_neg_of_pos ha hb)
  unfold jsRem jsTrunc
  rw [if_neg h, ← Int.self_sub_floor, neg_div, Int.floor_neg, mul_sub, mul_neg,
    mul_div_cancel₀ a hb.ne.symm]
  push_cast
  ring

theorem abs_jsRem_div_theta {PI : K} (hPI : 0 < PI) (a : K) :
    |jsRem a (TWO_PI PI) / theta PI| = 30 * Int.fract (|a| / TWO_PI PI) := by
  have h2 := TWO_PI_pos hPI
  have ht := theta_pos hPI
  have hm := theta_mul_cards PI
  rcases lt_or_le a 0 with ha | ha
  · rw [jsRem_of_neg h2 ha, abs_of_neg ha, neg_div, abs_neg, abs_of_nonneg
      (div_nonneg (mul_nonneg h2.le (Int.fract_nonneg _)) ht.le), ← hm]
    field_simp
    ring
  · rw [jsRem_of_nonneg h2 ha, abs_of_nonneg ha, abs_of_nonneg
      (div_nonneg (mul_nonneg h2.le (Int.fract_nonneg _)) ht.le), ← hm]
    field_simp
    ring

theorem interpolatedIndex_of_neg {PI : K} (hPI : 0 < PI) {a : K} (ha : a < 0) :
    interpolatedIndex PI a = 30 * Int.fract (-a / TWO_PI PI) := by
  unfold interpolatedIndex
  simp only [if_pos ha]
  rw [abs_jsRem_div_theta hPI, abs_of_neg ha]

theorem interpolatedIndex_of_nonneg {PI : K} (hPI : 0 < PI) {a : K} (ha : 0 ≤ a) :
    interpolatedIndex PI a = 30 - 30 * Int.fract (a / TWO_PI PI) := by
  unfold interpolatedIndex
  simp only [if_neg (not_lt.mpr ha)]
  rw [abs_jsRem_div_theta hPI, abs_of_nonneg ha]
  norm_num [numberOfCards]

theorem mathRound_eq_iff (x : K) (n : ℤ) :
    mathRound x = n ↔ (n : K) - 1 / 2 ≤ x ∧ x < (n : K) + 1 / 2 := by
  unfold mathRound
  rw [Int.floor_eq_iff]
  constructor
  · rintro ⟨h1, h2⟩
    constructor <;> linarith
  · rintro ⟨h1, h2⟩
    constructor <;> linarith

theorem mathRound_bounds (x : K) :
    x - 1 / 2 < (mathRound x : K) ∧ (mathRound x : K) ≤ x + 1 / 2 := by
  obtain ⟨h1, h2⟩ := (mathRound_eq_iff x (mathRound x)).mp rfl
  constructor <;> linarith

theorem abs_mathRound_sub_le (x : K) : |(mathRound x : K) - x| ≤ 1 / 2 := by
  obtain ⟨h1, h2⟩ := mathRound_bounds x
  rw [abs_le]
  constructor <;> linarith

/-! ## The interpolated index and the angle -/

theorem interpolatedIndex_range {PI : K} (hPI : 0 < PI) (a : K) :
    0 ≤ interpolatedIndex PI a ∧ interpolatedIndex PI a ≤ 30 := by
  rcases lt_or_le a 0 with ha | ha
  · rw [interpolatedIndex_of_neg hPI ha]
    have h0 := Int.fract_nonneg (-a / TWO_PI PI)
    have h1 := Int.fract_lt_one (-a / TWO_PI PI)
    constructor <;> linarith
  · rw [interpolatedIndex_of_nonneg hPI ha]
    have h0 := Int.fract_nonneg (a / TWO_PI PI)
    have h1 := Int.fract_lt_one (a / TWO_PI PI)
    constructor <;> linarith

theorem angle_eq_turns_sub {PI : K} (hPI : 0 < PI) (a : K) :
    ∃ n : ℤ, a = TWO_PI PI * (n : K) - theta PI * interpolatedIndex PI a := by
  have h2 := TWO_PI_pos hPI
  have hm := theta_mul_cards PI
  rcases lt_or_le a 0 with ha | ha
  · refine ⟨-⌊-a / TWO_PI PI⌋, ?_⟩
    rw [interpolatedIndex_of_neg hPI ha, ← mul_assoc, hm, ← Int.self_sub_floor]
    push_cast
    field_simp
    ring
  · refine ⟨⌊a / TWO_PI PI⌋ + 1, ?_⟩
    rw [interpolatedIndex_of_nonneg hPI ha, mul_sub, ← mul_assoc, hm, ← Int.self_sub_floor]
    push_cast
    field_simp
    ring

theorem activeIndex_range {PI : K} (hPI : 0 < PI) (width d : K) :
    0 ≤ activeIndex PI width d ∧ activeIndex PI width d ≤ 30 := by
  obtain ⟨h0, h1⟩ := interpolatedIndex_range hPI (angle PI width d)
  obtain ⟨h2, h3⟩ := mathRound_bounds (interpolatedIndex PI (angle PI width d))
  unfold activeIndex
  constructor
  · have h : (-1 : K) < (mathRound (interpolatedIndex PI (angle PI width d)) : K) := by linarith
    have h' : (-1 : ℤ) < mathRound (interpolatedIndex PI (angle PI width d)) := by exact_mod_cast h
    omega
  · have h : (mathRound (interpolatedIndex PI (angle PI width d)) : K) < 31 := by linarith
    have h' : mathRound (interpolatedIndex PI (angle PI width d)) < (31 : ℤ) := by exact_mod_cast h
    omega

/-! ## Exact values of the interpolated index -/

theorem interpolatedIndex_of_small_neg {PI : K} (hPI : 0 < PI) {a : K} (ha : a < 0)
    (hlo : -TWO_PI PI < a) : interpolatedIndex PI a = -a / theta PI := by
  have h2 := TWO_PI_pos hPI
  have ht := theta_pos hPI
  have hf : Int.fract (-a / TWO_PI PI) = -a / TWO_PI PI := by
    rw [Int.fract_eq_self]
    exact ⟨div_nonneg (by linarith) h2.le, (div_lt_one h2).mpr (by linarith)⟩
  rw [interpolatedIndex_of_neg hPI ha, hf, ← theta_mul_cards PI]
  field_simp
  ring

theorem interpolatedIndex_of_small_nonneg {PI : K} (hPI : 0 < PI) {a : K} (ha : 0 ≤ a)
    (hhi : a < TWO_PI PI) : interpolatedIndex PI a = 30 - a / theta PI := by
  have h2 := TWO_PI_pos hPI
  have ht := theta_pos hPI
  have hf : Int.fract (a / TWO_PI PI) = a / TWO_PI PI := by
    rw [Int.fract_eq_self]
    exact ⟨div_nonneg ha h2.le, (div_lt_one h2).mpr hhi⟩
  rw [interpolatedIndex_of_nonneg hPI ha, hf, ← theta_mul_cards PI]
  field_simp
  ring

theorem int_mul_theta_div (PI : K) (hPI : 0 < PI) (k : ℤ) :
    (k : K) * theta PI / TWO_PI PI = (k : K) / ((30 : ℕ) : K) := by
  have ht := theta_pos hPI
  rw [← theta_mul_cards PI]
  field_simp
  ring

theorem interpolatedIndex_int_of_neg {PI : K} (hPI : 0 < PI) {k : ℤ} (hk : k < 0) :
    interpolatedIndex PI ((k : K) * theta PI) = (((-k) % 30 : ℤ) : K) := by
  have ht := theta_pos hPI
  have hk' : (k : K) < 0 := by exact_mod_cast hk
  have ha : (k : K) * theta PI < 0 := mul_neg_of_neg_of_pos hk' ht
  have h := int_mul_theta_div PI hPI (-k)
  push_cast at h
  rw [interpolatedIndex_of_neg hPI ha, ← neg_mul, h]
  have hf := Int.fract_div_intCast_eq_div_intCast_mod (k := K) (m := -k) (n := 30)
  push_cast at hf
  rw [hf]
  ring

theorem interpolatedIndex_int_of_nonneg {PI : K} (hPI : 0 < PI) {k : ℤ} (hk : 0 ≤ k) :
    interpolatedIndex PI ((k : K) * theta PI) = 30 - ((k % 30 : ℤ) : K) := by
  have ht := theta_pos hPI
  have hk' : (0 : K) ≤ (k : K) := by exact_mod_cast hk
  have ha : 0 ≤ (k : K) * theta PI := mul_nonneg hk' ht.le
  have h := int_mul_theta_div PI hPI k
  push_cast at h
  rw [interpolatedIndex_of_nonneg hPI ha, h]
  have hf := Int.fract_div_intCast_eq_div_intCast_mod (k := K) (m := k) (n := 30)
  push_cast at hf
  rw [hf]
  ring

theorem mathRound_intCast (n : ℤ) : mathRound (n : K) = n := by
  rw [mathRound_eq_iff]
  constructor <;> linarith

theorem mathRound_thirty_sub_intCast (n : ℤ) : mathRound ((30 : K) - (n : K)) = 30 - n := by
  have h := mathRound_intCast (K := K) (30 - n)
  push_cast at h
  exact h

theorem activeIndex_zero (PI width : K) : activeIndex PI width 0 = 30 := by
  unfold activeIndex angle interpolatedIndex jsRem jsTrunc numberOfCards
  rw [mathRound_eq_iff]
  norm_num

/-- If `B` differs from `A` by a whole number of steps and `A` is within half
a step of zero, then `B` is not closer to zero than `A`. -/
theorem abs_le_abs_of_step {step A B : K} (hstep : 0 < step) (t : ℤ)
    (hBA : B - A = step * (t : K)) (hA : |A| ≤ step / 2) : |A| ≤ |B| := by
  rcases eq_or_ne t 0 with rfl | ht
  · have : B = A := by
      have := hBA
      simp at this
      linarith
    rw [this]
  · have h1 : (1 : K) ≤ |(t : K)| := by
      have : (1 : ℤ) ≤ |t| := Int.one_le_abs ht
      exact_mod_cast this
    have h2 : step ≤ |B - A| := by
      rw [hBA, abs_mul, abs_of_pos hstep]
      nlinarith
    have h3 : |B - A| ≤ |B| + |A| := abs_sub B A
    linarith

theorem cardRotate_mounted (PI : K) (cardIndex : ℕ) :
    cardRotate PI 1 cardIndex = theta PI * (cardIndex : K) := by
  unfold cardRotate interpolate
  simp

/-- The rotation of the wheel plus `theta` times the active index is a whole
number of turns plus `theta` times the rounding error. -/
theorem wheelRotate_add_active {PI : K} (hPI : 0 < PI) (width d : K) :
    ∃ n : ℤ, wheelRotate PI width d + theta PI * (activeIndex PI width d : K)
      = TWO_PI PI * (n : K)
        + theta PI * ((activeIndex PI width d : K) - interpolatedIndex PI (angle PI width d)) := by
  obtain ⟨n, hn⟩ := angle_eq_turns_sub hPI (angle PI width d)
  refine ⟨n, ?_⟩
  unfold wheelRotate
  linear_combination hn

theorem abs_theta_mul_round_error {PI : K} (hPI : 0 < PI) (width d : K) :
    |theta PI * ((activeIndex PI width d : K) - interpolatedIndex PI (angle PI width d))|
      ≤ theta PI / 2 := by
  have ht := theta_pos hPI
  have h := abs_mathRound_sub_le (interpolatedIndex PI (angle PI width d))
  rw [abs_mul, abs_of_pos ht]
  unfold activeIndex
  nlinarith

/-! ## Properties of the wheel -/

/-- C1: at distance `0`, the initial value of `distance`, `activeIndex` is `30`,
the number of cards, which is not an index in `[0, 30)`; over all distances
`activeIndex` stays in the closed range `[0, 30]`. -/
theorem activeIndex_zero_eq_numberOfCards {PI : K} (hPI : 0 < PI) (width : K) :
    activeIndex PI width 0 = (numberOfCards : ℤ) ∧
      ∀ d : K, 0 ≤ activeIndex PI width d ∧ activeIndex PI width d ≤ (numberOfCards : ℤ) := by
  refine ⟨activeIndex_zero PI width, fun d => ?_⟩
  exact activeIndex_range hPI width d

theorem activeIndex_zero_eq_numberOfCards_witness :
    0 < Real.pi ∧ (activeIndex Real.pi (400 : ℝ) 0 = (numberOfCards : ℤ) ∧
      ∀ d : ℝ, 0 ≤ activeIndex Real.pi 400 d ∧ activeIndex Real.pi 400 d ≤ (numberOfCards : ℤ)) :=
  ⟨Real.pi_pos, activeIndex_zero_eq_numberOfCards Real.pi_pos 400⟩

/-- C2: for every distance, the card `activeIndex mod 30` is a nearest card: the
rotation of the wheel plus the rotation of that card is within `theta / 2` of a
whole number of turns, and no card in `[0, 30)` is strictly closer to one. -/
theorem activeIndex_selects_nearest_card {PI : K} (hPI : 0 < PI) (width d : K) :
    (activeIndex PI width d % 30).toNat < numberOfCards ∧
    ∃ m : ℤ,
      |wheelRotate PI width d + cardRotate PI 1 (activeIndex PI width d % 30).toNat
          - TWO_PI PI * (m : K)| ≤ theta PI / 2 ∧
      ∀ j : ℕ, j < numberOfCards → ∀ m' : ℤ,
        |wheelRotate PI width d + cardRotate PI 1 (activeIndex PI width d % 30).toNat
            - TWO_PI PI * (m : K)|
          ≤ |wheelRotate PI width d + cardRotate PI 1 j - TWO_PI PI * (m' : K)| := by
  have ht := theta_pos hPI
  have hm := theta_mul_cards PI
  obtain ⟨n, hn⟩ := wheelRotate_add_active hPI width d
  have herr := abs_theta_mul_round_error hPI width d
  set idx := activeIndex PI width d with hidx
  have hnn : 0 ≤ idx % 30 := Int.emod_nonneg idx (by norm_num)
  have hlt : idx % 30 < 30 := Int.emod_lt_of_pos idx (by norm_num)
  have hcast : (((idx % 30).toNat : ℕ) : K) = (idx : K) - 30 * ((idx / 30 : ℤ) : K) := by
    have h1 : (((idx % 30).toNat : ℕ) : ℤ) = idx % 30 := Int.toNat_of_nonneg hnn
    have h2 : idx % 30 = idx - 30 * (idx / 30) := by omega
    have h3 : (((idx % 30).toNat : ℕ) : ℤ) = idx - 30 * (idx / 30) := by rw [h1, h2]
    exact_mod_cast h3
  have hA : wheelRotate PI width d + cardRotate PI 1 (idx % 30).toNat
      - TWO_PI PI * ((n - idx / 30 : ℤ) : K)
      = theta PI * ((idx : K) - interpolatedIndex PI (angle PI width d)) := by
    rw [cardRotate_mounted, hcast]
    push_cast
    linear_combination hn - ((idx / 30 : ℤ) : K) * hm
  refine ⟨?_, n - idx / 30, ?_, ?_⟩
  · unfold numberOfCards
    omega
  · rw [hA]
    exact herr
  · intro j _ m'
    refine abs_le_abs_of_step ht ((j : ℤ) - (idx % 30) - 30 * (m' - (n - idx / 30))) ?_ ?_
    · rw [cardRotate_mounted, cardRotate_mounted, hcast]
      have h2 : idx % 30 = idx - 30 * (idx / 30) := by omega
      rw [h2]
      push_cast
      linear_combination ((m' : K) - (n : K) + ((idx / 30 : ℤ) : K)) * hm
    · rw [hA]
      exact herr

theorem activeIndex_selects_nearest_card_witness :
    0 < Real.pi ∧ ((activeIndex Real.pi (400 : ℝ) 1234 % 30).toNat < numberOfCards ∧
    ∃ m : ℤ,
      |wheelRotate Real.pi (400 : ℝ) 1234
          + cardRotate Real.pi 1 (activeIndex Real.pi (400 : ℝ) 1234 % 30).toNat
          - TWO_PI Real.pi * (m : ℝ)| ≤ theta Real.pi / 2 ∧
      ∀ j : ℕ, j < numberOfCards → ∀ m' : ℤ,
        |wheelRotate Real.pi (400 : ℝ) 1234
            + cardRotate Real.pi 1 (activeIndex Real.pi (400 : ℝ) 1234 % 30).toNat
            - TWO_PI Real.pi * (m : ℝ)|
          ≤ |wheelRotate Real.pi (400 : ℝ) 1234 + cardRotate Real.pi 1 j
              - TWO_PI Real.pi * (m' : ℝ)|) :=
  ⟨Real.pi_pos, activeIndex_selects_nearest_card Real.pi_pos 400 1234⟩

/-- C3, as stated, fails at distance `theta * circleCircumference`, one card
step to the right of the start: there `activeIndex` is `29` and the target
handed to `withSpring` is a whole turn away from the distance, not within half
a card step of it. -/
theorem snapTarget_one_step_not_within_half_step :
    ¬ |snapTarget Real.pi (400 : ℝ) (theta Real.pi * circleCircumference Real.pi 400)
          - theta Real.pi * circleCircumference Real.pi 400|
        ≤ theta Real.pi * circleCircumference Real.pi 400 / 2 := by
  have ht := theta_pos Real.pi_pos
  have hm := theta_mul_cards Real.pi
  have hp := mul_pos ht (circleCircumference_pos Real.pi_pos (400 : ℝ))
  have h : activeIndex Real.pi (400 : ℝ) (theta Real.pi * circleCircumference Real.pi 400)
      = 29 := by
    unfold activeIndex
    rw [angle_of_mul_circumference Real.pi_pos,
      interpolatedIndex_of_small_nonneg Real.pi_pos ht.le (by linarith),
      div_self ht.ne.symm, mathRound_eq_iff]
    norm_num
  unfold snapTarget
  rw [h]
  push_cast
  rw [abs_of_neg (by nlinarith)]
  nlinarith

/-- The difference between the spring target and the distance, in terms of the
rounding error of the active index. -/
theorem snapTarget_sub {PI : K} (hPI : 0 < PI) (width d : K) :
    ∃ n : ℤ, snapTarget PI width d - d
      = -((n : K) * (TWO_PI PI * circleCircumference PI width))
        - theta PI * ((activeIndex PI width d : K) - interpolatedIndex PI (angle PI width d))
          * circleCircumference PI width := by
  obtain ⟨n, hn⟩ := wheelRotate_add_active hPI width d
  have hd := angle_mul_circumference hPI width d
  refine ⟨n, ?_⟩
  unfold wheelRotate at hn
  unfold snapTarget
  linear_combination (-circleCircumference PI width) * hn + hd

/-- C3, amended: the target handed to `withSpring` is the multiple
`-activeIndex * theta * circleCircumference` of the card step, with
`activeIndex` in `[0, 30]`, so it lies in the single turn
`[-TWO_PI * circleCircumference, 0]`; it is the multiple nearest to the
distance up to whole turns, that is, it differs from the distance by a whole
number of turns `TWO_PI * circleCircumference` plus at most half a card step;
and when the distance lies strictly between minus one turn and `0` the target
is within half a card step of the distance itself. -/
theorem snapTarget_nearest_up_to_turns {PI : K} (hPI : 0 < PI) (width d : K) :
    snapTarget PI width d
        = -(activeIndex PI width d : K) * (theta PI * circleCircumference PI width) ∧
    (0 ≤ activeIndex PI width d ∧ activeIndex PI width d ≤ (numberOfCards : ℤ)) ∧
    (-(TWO_PI PI * circleCircumference PI width) ≤ snapTarget PI width d ∧
      snapTarget PI width d ≤ 0) ∧
    (∃ m : ℤ, |snapTarget PI width d - d - (m : K) * (TWO_PI PI * circleCircumference PI width)|
        ≤ theta PI * circleCircumference PI width / 2) ∧
    (-(TWO_PI PI * circleCircumference PI width) < d → d < 0 →
      |snapTarget PI width d - d| ≤ theta PI * circleCircumference PI width / 2) := by
  have ht := theta_pos hPI
  have hc := circleCircumference_pos hPI width
  have hm := theta_mul_cards PI
  have herr := abs_theta_mul_round_error hPI width d
  have hd := angle_mul_circumference hPI width d
  have hrange := activeIndex_range hPI width d
  have hstep : 0 < theta PI * circleCircumference PI width := mul_pos ht hc
  have h0 : (0 : K) ≤ (activeIndex PI width d : K) := by exact_mod_cast hrange.1
  have h30 : (activeIndex PI width d : K) ≤ 30 := by exact_mod_cast hrange.2
  have hsnap : snapTarget PI width d
      = -(activeIndex PI width d : K) * (theta PI * circleCircumference PI width) := by
    unfold snapTarget
    ring
  have hbound : ∀ e : K, |theta PI * e| ≤ theta PI / 2 →
      |-(theta PI * e * circleCircumference PI width)|
        ≤ theta PI * circleCircumference PI width / 2 := by
    intro e he
    rw [abs_neg, abs_mul, abs_of_pos hc]
    nlinarith
  refine ⟨hsnap, hrange, ⟨?_, ?_⟩, ?_, ?_⟩
  · rw [hsnap, ← hm]
    nlinarith
  · rw [hsnap]
    nlinarith
  · obtain ⟨n, hn⟩ := snapTarget_sub hPI width d
    refine ⟨-n, ?_⟩
    have h : snapTarget PI width d - d
        - ((-n : ℤ) : K) * (TWO_PI PI * circleCircumference PI width)
        = -(theta PI * ((activeIndex PI width d : K) - interpolatedIndex PI (angle PI width d))
            * circleCircumference PI width) := by
      push_cast
      linear_combination hn
    rw [h]
    exact hbound _ herr
  · intro hlo hneg
    have ha : angle PI width d < 0 := by
      by_contra h
      push_neg at h
      nlinarith
    have hlo' : -TWO_PI PI < angle PI width d := by
      by_contra h
      push_neg at h
      nlinarith
    have hii := interpolatedIndex_of_small_neg hPI ha hlo'
    have hii' : theta PI * interpolatedIndex PI (angle PI width d) = -angle PI width d := by
      rw [hii]
      field_simp
      ring
    have h : snapTarget PI width d - d
        = -(theta PI * ((activeIndex PI width d : K) - interpolatedIndex PI (angle PI width d))
            * circleCircumference PI width) := by
      unfold snapTarget
      linear_combination (-circleCircumference PI width) * hii' + hd
    rw [h]
    exact hbound _ herr

theorem snapTarget_nearest_up_to_turns_witness :
    0 < Real.pi ∧
    (snapTarget Real.pi (400 : ℝ) (-1)
        = -(activeIndex Real.pi (400 : ℝ) (-1) : ℝ)
            * (theta Real.pi * circleCircumference Real.pi 400) ∧
    (0 ≤ activeIndex Real.pi (400 : ℝ) (-1) ∧
      activeIndex Real.pi (400 : ℝ) (-1) ≤ (numberOfCards : ℤ)) ∧
    (-(TWO_PI Real.pi * circleCircumference Real.pi 400) ≤ snapTarget Real.pi (400 : ℝ) (-1) ∧
      snapTarget Real.pi (400 : ℝ) (-1) ≤ 0) ∧
    (∃ m : ℤ, |snapTarget Real.pi (400 : ℝ) (-1) - (-1)
          - (m : ℝ) * (TWO_PI Real.pi * circleCircumference Real.pi 400)|
        ≤ theta Real.pi * circleCircumference Real.pi 400 / 2) ∧
    (-(TWO_PI Real.pi * circleCircumference Real.pi 400) < (-1 : ℝ) → (-1 : ℝ) < 0 →
      |snapTarget Real.pi (400 : ℝ) (-1) - (-1)|
        ≤ theta Real.pi * circleCircumference Real.pi 400 / 2)) :=
  ⟨Real.pi_pos, snapTarget_nearest_up_to_turns Real.pi_pos 400 (-1)⟩

theorem angle_snapTarget {PI : K} (hPI : 0 < PI) (width d : K) :
    angle PI width (snapTarget PI width d)
      = ((-activeIndex PI width d : ℤ) : K) * theta PI := by
  have h : snapTarget PI width d
      = ((-activeIndex PI width d : ℤ) : K) * theta PI * circleCircumference PI width := by
    unfold snapTarget
    push_cast
    ring
  rw [h, angle_of_mul_circumference hPI]

/-- C4: with the wheel unlocked, the decay callback run at distance `d` calls
`onCardChange` once, with `activeIndex(d)`, and gives `snapTarget(d)` to
`withSpring`.  The index recomputed at that target equals `activeIndex(d)`
when it is strictly between `0` and `30`, but is `0` when `activeIndex(d)` is
`30` and `30` when `activeIndex(d)` is `0`. -/
theorem activeIndex_at_snapTarget {PI : K} (hPI : 0 < PI) (width d : K) :
    (onFinalize PI width false d).map Settle.cardChanges = some [activeIndex PI width d] ∧
    (onFinalize PI width false d).map Settle.springTo = some (snapTarget PI width d) ∧
    (activeIndex PI width d = 30 → activeIndex PI width (snapTarget PI width d) = 0) ∧
    (activeIndex PI width d = 0 → activeIndex PI width (snapTarget PI width d) = 30) ∧
    (0 < activeIndex PI width d → activeIndex PI width d < 30 →
      activeIndex PI width (snapTarget PI width d) = activeIndex PI width d) := by
  have key : activeIndex PI width (snapTarget PI width d)
      = mathRound (interpolatedIndex PI (((-activeIndex PI width d : ℤ) : K) * theta PI)) := by
    rw [← angle_snapTarget hPI width d]
    rfl
  refine ⟨rfl, rfl, ?_, ?_, ?_⟩
  · intro h
    rw [key, h, interpolatedIndex_int_of_neg hPI (by norm_num), mathRound_intCast]
    norm_num
  · intro h
    rw [key, h, interpolatedIndex_int_of_nonneg hPI (by norm_num),
      mathRound_thirty_sub_intCast]
    norm_num
  · intro h0 h30
    rw [key, interpolatedIndex_int_of_neg hPI (by omega), neg_neg,
      Int.emod_eq_of_lt h0.le h30]
    exact mathRound_intCast _

theorem activeIndex_at_snapTarget_witness :
    0 < Real.pi ∧
    ((onFinalize Real.pi (400 : ℝ) false 0).map Settle.cardChanges
        = some [activeIndex Real.pi (400 : ℝ) 0] ∧
    (onFinalize Real.pi (400 : ℝ) false 0).map Settle.springTo
        = some (snapTarget Real.pi (400 : ℝ) 0) ∧
    (activeIndex Real.pi (400 : ℝ) 0 = 30 →
      activeIndex Real.pi (400 : ℝ) (snapTarget Real.pi (400 : ℝ) 0) = 0) ∧
    (activeIndex Real.pi (400 : ℝ) 0 = 0 →
      activeIndex Real.pi (400 : ℝ) (snapTarget Real.pi (400 : ℝ) 0) = 30) ∧
    (0 < activeIndex Real.pi (400 : ℝ) 0 → activeIndex Real.pi (400 : ℝ) 0 < 30 →
      activeIndex Real.pi (400 : ℝ) (snapTarget Real.pi (400 : ℝ) 0)
        = activeIndex Real.pi (400 : ℝ) 0)) :=
  ⟨Real.pi_pos, activeIndex_at_snapTarget Real.pi_pos 400 0⟩

theorem neg_turn_eq (PI width : K) :
    -(TWO_PI PI * circleCircumference PI width)
      = ((-30 : ℤ) : K) * theta PI * circleCircumference PI width := by
  rw [← theta_mul_cards PI]
  push_cast
  ring

/-- C5: with the wheel unlocked and the decay completing at distance `0`, the
callback calls `onCardChange` exactly once, with argument `30` (not `0`), and
sends the spring to minus one whole turn, where `activeIndex` is `0`. -/
theorem settle_from_zero {PI : K} (hPI : 0 < PI) (width : K) :
    onFinalize PI width false 0
      = some { springTo := -(TWO_PI PI * circleCircumference PI width), cardChanges := [30] } ∧
    activeIndex PI width (-(TWO_PI PI * circleCircumference PI width)) = 0 := by
  constructor
  · have h : snapTarget PI width 0 = -(TWO_PI PI * circleCircumference PI width) := by
      unfold snapTarget
      rw [activeIndex_zero, ← theta_mul_cards PI]
      push_cast
      ring
    simp [onFinalize, decayCallback, h, activeIndex_zero]
  · rw [neg_turn_eq]
    unfold activeIndex
    rw [angle_of_mul_circumference hPI, interpolatedIndex_int_of_neg hPI (by norm_num),
      mathRound_intCast]
    norm_num

theorem settle_from_zero_witness :
    0 < Real.pi ∧
    (onFinalize Real.pi (400 : ℝ) false 0
      = some { springTo := -(TWO_PI Real.pi * circleCircumference Real.pi 400),
               cardChanges := [30] } ∧
    activeIndex Real.pi (400 : ℝ) (-(TWO_PI Real.pi * circleCircumference Real.pi 400)) = 0) :=
  ⟨Real.pi_pos, settle_from_zero Real.pi_pos 400⟩

/-- C6, as stated, fails at `k = -31`: the rounded interpolated index at angle
`-31 * theta` is `1`, not `|-31| = 31`. -/
theorem mathRound_interpolatedIndex_neg_thirty_one :
    ¬ mathRound (interpolatedIndex Real.pi (((-31 : ℤ) : ℝ) * theta Real.pi)) = |(-31 : ℤ)| := by
  rw [interpolatedIndex_int_of_neg Real.pi_pos (by norm_num), mathRound_intCast]
  decide

/-- C6, amended: for every integer `k`, the rounded interpolated index at angle
`k * theta` is `(30 - k) mod 30` when `k > 0` is not a multiple of `30`, and is
`|k| mod 30` when `k < 0`. -/
theorem mathRound_interpolatedIndex_int {PI : K} (hPI : 0 < PI) (k : ℤ) :
    (0 < k → ¬ (numberOfCards : ℤ) ∣ k →
      mathRound (interpolatedIndex PI ((k : K) * theta PI))
        = ((numberOfCards : ℤ) - k) % (numberOfCards : ℤ)) ∧
    (k < 0 →
      mathRound (interpolatedIndex PI ((k : K) * theta PI)) = |k| % (numberOfCards : ℤ)) := by
  unfold numberOfCards
  constructor
  · intro hk hdvd
    rw [interpolatedIndex_int_of_nonneg hPI hk.le, mathRound_thirty_sub_intCast]
    push_cast at hdvd ⊢
    omega
  · intro hk
    rw [interpolatedIndex_int_of_neg hPI hk, mathRound_intCast, abs_of_neg hk]
    push_cast
    rfl

theorem mathRound_interpolatedIndex_int_witness :
    0 < Real.pi ∧
    ((0 < (31 : ℤ) → ¬ (numberOfCards : ℤ) ∣ 31 →
      mathRound (interpolatedIndex Real.pi (((31 : ℤ) : ℝ) * theta Real.pi))
        = ((numberOfCards : ℤ) - 31) % (numberOfCards : ℤ)) ∧
    ((31 : ℤ) < 0 →
      mathRound (interpolatedIndex Real.pi (((31 : ℤ) : ℝ) * theta Real.pi))
        = |(31 : ℤ)| % (numberOfCards : ℤ))) :=
  ⟨Real.pi_pos, mathRound_interpolatedIndex_int Real.pi_pos 31⟩

/-- C7: at `k = 0` the active index jumps by `30`: every distance just below
`0` (within half a card step) has `activeIndex = 0`, and every distance just
above `0` has `activeIndex = 30`. -/
theorem activeIndex_jump_at_zero {PI : K} (hPI : 0 < PI) (width d1 d2 : K)
    (h1 : -(theta PI * circleCircumference PI width / 2) < d1) (h1' : d1 < 0)
    (h2 : 0 < d2) (h2' : d2 ≤ theta PI * circleCircumference PI width / 2) :
    activeIndex PI width d1 = 0 ∧ activeIndex PI width d2 = 30 := by
  have ht := theta_pos hPI
  have hc := circleCircumference_pos hPI width
  have hm := theta_mul_cards PI
  have hd1 := angle_mul_circumference hPI width d1
  have hd2 := angle_mul_circumference hPI width d2
  constructor
  · have ha : angle PI width d1 < 0 := by
      by_contra h
      push_neg at h
      nlinarith
    have hlo : -(theta PI / 2) < angle PI width d1 := by
      by_contra h
      push_neg at h
      nlinarith
    unfold activeIndex
    rw [interpolatedIndex_of_small_neg hPI ha (by linarith), mathRound_eq_iff]
    constructor
    · have : 0 ≤ -angle PI width d1 / theta PI := div_nonneg (by linarith) ht.le
      push_cast
      linarith
    · push_cast
      rw [zero_add, div_lt_iff₀ ht]
      linarith
  · have ha : 0 < angle PI width d2 := by
      by_contra h
      push_neg at h
      nlinarith
    have hhi : angle PI width d2 ≤ theta PI / 2 := by
      by_contra h
      push_neg at h
      nlinarith
    unfold activeIndex
    rw [interpolatedIndex_of_small_nonneg hPI ha.le (by linarith), mathRound_eq_iff]
    have hq0 : 0 < angle PI width d2 / theta PI := div_pos ha ht
    have hq1 : angle PI width d2 / theta PI ≤ 1 / 2 := by
      rw [div_le_iff₀ ht]
      linarith
    push_cast
    constructor <;> linarith

theorem activeIndex_jump_at_zero_witness :
    0 < Real.pi ∧ -(theta Real.pi * circleCircumference Real.pi (400 : ℝ) / 2) < 0 - 1 ∧
    (0 : ℝ) - 1 < 0 ∧ (0 : ℝ) < 0 + 1 ∧
    (0 : ℝ) + 1 ≤ theta Real.pi * circleCircumference Real.pi (400 : ℝ) / 2 ∧
    (activeIndex Real.pi (400 : ℝ) (0 - 1) = 0 ∧ activeIndex Real.pi (400 : ℝ) (0 + 1) = 30) := by
  have hstep : (108 : ℝ) ≤ theta Real.pi * circleCircumference Real.pi (400 : ℝ) := by
    have h2 := TWO_PI_pos Real.pi_pos
    have hr : (108 : ℝ) * 30 / TWO_PI Real.pi ≤ circleRadius Real.pi 400 := by
      unfold circleRadius
      refine le_trans (le_of_eq ?_) (le_max_left _ _)
      norm_num [tarotCardSizeOnCircle, tarotCardSizeVisiblePercentage, tarotCardWidth, minSize,
        numberOfCards]
    have h3 : (108 : ℝ) * 30 ≤ circleCircumference Real.pi 400 := by
      unfold circleCircumference
      calc (108 : ℝ) * 30 = TWO_PI Real.pi * ((108 : ℝ) * 30 / TWO_PI Real.pi) := by
            field_simp
        _ ≤ TWO_PI Real.pi * circleRadius Real.pi 400 :=
            mul_le_mul_of_nonneg_left hr h2.le
    have h4 : theta Real.pi * circleCircumference Real.pi (400 : ℝ)
        = circleCircumference Real.pi 400 * (TWO_PI Real.pi / 30) := by
      unfold theta numberOfCards
      push_cast
      ring
    have h5 : (6 : ℝ) < TWO_PI Real.pi := by
      unfold TWO_PI
      linarith [Real.pi_gt_three]
    rw [h4]
    nlinarith
  have a1 : -(theta Real.pi * circleCircumference Real.pi (400 : ℝ) / 2) < 0 - 1 := by linarith
  have a2 : (0 : ℝ) + 1 ≤ theta Real.pi * circleCircumference Real.pi (400 : ℝ) / 2 := by
    linarith
  exact ⟨Real.pi_pos, a1, by norm_num, by norm_num, a2,
    activeIndex_jump_at_zero Real.pi_pos 400 (0 - 1) (0 + 1) a1 (by norm_num) (by norm_num) a2⟩

/-- C8, as stated, fails: at distance `7.5 * theta * circleCircumference` the
active index is neither `7` nor `8`. -/
theorem activeIndex_seven_and_a_half_not_seven_or_eight :
    ¬ (activeIndex Real.pi (400 : ℝ)
          (7.5 * theta Real.pi * circleCircumference Real.pi 400) = 7 ∨
       activeIndex Real.pi (400 : ℝ)
          (7.5 * theta Real.pi * circleCircumference Real.pi 400) = 8) := by
  have ht := theta_pos Real.pi_pos
  have hm := theta_mul_cards Real.pi
  have h : activeIndex Real.pi (400 : ℝ)
      (7.5 * theta Real.pi * circleCircumference Real.pi 400) = 23 := by
    unfold activeIndex
    rw [angle_of_mul_circumference Real.pi_pos,
      interpolatedIndex_of_small_nonneg Real.pi_pos (by nlinarith) (by nlinarith),
      mul_div_assoc, div_self ht.ne.symm, mathRound_eq_iff]
    norm_num
  rw [h]
  decide

/-- C8, amended: at distance `7.5 * theta * circleCircumference` the position
is halfway between cards 22 and 23 (their rotations are `theta / 2` short of and
`theta / 2` past a whole turn) and the active index is 22 or 23; the position
halfway between cards 7 and 8 is distance `-7.5 * theta * circleCircumference`,
where the active index is 7 or 8. -/
theorem activeIndex_seven_and_a_half {PI : K} (hPI : 0 < PI) (width : K) :
    (wheelRotate PI width (7.5 * theta PI * circleCircumference PI width) + cardRotate PI 1 22
        = TWO_PI PI - theta PI / 2 ∧
      wheelRotate PI width (7.5 * theta PI * circleCircumference PI width) + cardRotate PI 1 23
        = TWO_PI PI + theta PI / 2 ∧
      (activeIndex PI width (7.5 * theta PI * circleCircumference PI width) = 22 ∨
        activeIndex PI width (7.5 * theta PI * circleCircumference PI width) = 23)) ∧
    (wheelRotate PI width (-7.5 * theta PI * circleCircumference PI width) + cardRotate PI 1 7
        = -(theta PI / 2) ∧
      wheelRotate PI width (-7.5 * theta PI * circleCircumference PI width) + cardRotate PI 1 8
        = theta PI / 2 ∧
      (activeIndex PI width (-7.5 * theta PI * circleCircumference PI width) = 7 ∨
        activeIndex PI width (-7.5 * theta PI * circleCircumference PI width) = 8)) := by
  have ht := theta_pos hPI
  have hm := theta_mul_cards PI
  have hpos : interpolatedIndex PI
      (angle PI width (7.5 * theta PI * circleCircumference PI width)) = 22.5 := by
    rw [angle_of_mul_circumference hPI,
      interpolatedIndex_of_small_nonneg hPI (by nlinarith) (by nlinarith),
      mul_div_assoc, div_self ht.ne.symm]
    norm_num
  have hneg : interpolatedIndex PI
      (angle PI width (-7.5 * theta PI * circleCircumference PI width)) = 7.5 := by
    rw [angle_of_mul_circumference hPI,
      interpolatedIndex_of_small_neg hPI (by nlinarith) (by nlinarith),
      ← neg_mul, mul_div_assoc, div_self ht.ne.symm]
    norm_num
  refine ⟨⟨?_, ?_, Or.inr ?_⟩, ⟨?_, ?_, Or.inr ?_⟩⟩
  · unfold wheelRotate
    rw [angle_of_mul_circumference hPI, cardRotate_mounted]
    push_cast
    linear_combination hm
  · unfold wheelRotate
    rw [angle_of_mul_circumference hPI, cardRotate_mounted]
    push_cast
    linear_combination hm
  · unfold activeIndex
    rw [hpos, mathRound_eq_iff]
    norm_num
  · unfold wheelRotate
    rw [angle_of_mul_circumference hPI, cardRotate_mounted]
    push_cast
    ring
  · unfold wheelRotate
    rw [angle_of_mul_circumference hPI, cardRotate_mounted]
    push_cast
    ring
  · unfold activeIndex
    rw [hneg, mathRound_eq_iff]
    norm_num

theorem activeIndex_seven_and_a_half_witness :
    0 < Real.pi ∧
    ((wheelRotate Real.pi (400 : ℝ) (7.5 * theta Real.pi * circleCircumference Real.pi 400)
          + cardRotate Real.pi 1 22 = TWO_PI Real.pi - theta Real.pi / 2 ∧
      wheelRotate Real.pi (400 : ℝ) (7.5 * theta Real.pi * circleCircumference Real.pi 400)
          + cardRotate Real.pi 1 23 = TWO_PI Real.pi + theta Real.pi / 2 ∧
      (activeIndex Real.pi (400 : ℝ) (7.5 * theta Real.pi * circleCircumference Real.pi 400)
          = 22 ∨
        activeIndex Real.pi (400 : ℝ) (7.5 * theta Real.pi * circleCircumference Real.pi 400)
          = 23)) ∧
    (wheelRotate Real.pi (400 : ℝ) (-7.5 * theta Real.pi * circleCircumference Real.pi 400)
          + cardRotate Real.pi 1 7 = -(theta Real.pi / 2) ∧
      wheelRotate Real.pi (400 : ℝ) (-7.5 * theta Real.pi * circleCircumference Real.pi 400)
          + cardRotate Real.pi 1 8 = theta Real.pi / 2 ∧
      (activeIndex Real.pi (400 : ℝ) (-7.5 * theta Real.pi * circleCircumference Real.pi 400)
          = 7 ∨
        activeIndex Real.pi (400 : ℝ) (-7.5 * theta Real.pi * circleCircumference Real.pi 400)
          = 8))) :=
  ⟨Real.pi_pos, activeIndex_seven_and_a_half Real.pi_pos 400⟩

/-! ## The drag accumulation on doubles -/

namespace Binary64

theorem roundTiesEven_eq {x : ℚ} {m : ℤ} (h1 : (m : ℚ) - 1 / 2 < x) (h2 : x < (m : ℚ) + 1 / 2) :
    roundTiesEven x = m := by
  unfold roundTiesEven
  rcases le_or_lt (m : ℚ) x with h | h
  · have hf : ⌊x⌋ = m := by
      rw [Int.floor_eq_iff]
      constructor <;> linarith
    have hfr : Int.fract x < 1 / 2 := by
      rw [← Int.self_sub_floor, hf]
      linarith
    rw [if_pos hfr, hf]
  · have hf : ⌊x⌋ = m - 1 := by
      rw [Int.floor_eq_iff]
      push_cast
      constructor <;> linarith
    have hfr : 1 / 2 < Int.fract x := by
      rw [← Int.self_sub_floor, hf]
      push_cast
      linarith
    rw [if_neg (not_lt.mpr hfr.le), if_pos hfr, hf]
    ring

theorem log_eq_of_bounds {r : ℚ} {e : ℤ} (h1 : (2 : ℚ) ^ e ≤ r) (h2 : r < (2 : ℚ) ^ (e + 1)) :
    Int.log 2 r = e := by
  have hr : 0 < r := lt_of_lt_of_le (by positivity) h1
  have ha : e ≤ Int.log 2 r := by
    rw [← Int.zpow_le_iff_le_log (by norm_num) hr]
    exact_mod_cast h1
  have hb : Int.log 2 r < e + 1 := by
    rw [← Int.lt_zpow_iff_log_lt (by norm_num) hr]
    exact_mod_cast h2
  omega

theorem toDouble_eq {x : ℚ} (e m : ℤ) (h1 : (2 : ℚ) ^ e ≤ |x|) (h2 : |x| < (2 : ℚ) ^ (e + 1))
    (h3 : ((m : ℚ) - 1 / 2) * 2 ^ (e - 52) < x) (h4 : x < ((m : ℚ) + 1 / 2) * 2 ^ (e - 52)) :
    toDouble x = (m : ℚ) * 2 ^ (e - 52) := by
  have hx : x ≠ 0 := by
    intro h
    rw [h, abs_zero] at h1
    exact absurd h1 (not_le.mpr (by positivity))
  have hu : (0 : ℚ) < 2 ^ (e - 52) := by positivity
  unfold toDouble ulp
  rw [if_neg hx, log_eq_of_bounds h1 h2, roundTiesEven_eq]
  · rw [lt_div_iff₀ hu]
    exact h3
  · rw [div_lt_iff₀ hu]
    exact h4

theorem toDouble_eq_val {x y : ℚ} (e m : ℤ) (h1 : (2 : ℚ) ^ e ≤ |x|)
    (h2 : |x| < (2 : ℚ) ^ (e + 1)) (h3 : ((m : ℚ) - 1 / 2) * 2 ^ (e - 52) < x)
    (h4 : x < ((m : ℚ) + 1 / 2) * 2 ^ (e - 52)) (hy : (m : ℚ) * 2 ^ (e - 52) = y) :
    toDouble x = y := by
  rw [toDouble_eq e m h1 h2 h3 h4, hy]

theorem toDouble_zero : toDouble 0 = 0 := by
  unfold toDouble
  rw [if_pos rfl]

theorem TWO_PI_eq : TWO_PI = 884279719003555 / 140737488355328 := by
  unfold TWO_PI PI
  exact toDouble_eq_val 2 7074237752028440 (by norm_num [abs_of_pos]) (by norm_num [abs_of_pos])
    (by norm_num) (by norm_num) (by norm_num)

theorem tarotCardSizeVisiblePercentage_eq :
    tarotCardSizeVisiblePercentage = 8106479329266893 / 9007199254740992 := by
  unfold tarotCardSizeVisiblePercentage
  exact toDouble_eq_val (-1) 8106479329266893 (by norm_num [abs_of_pos])
    (by norm_num [abs_of_pos]) (by norm_num) (by norm_num) (by norm_num)

theorem tarotCardSizeOnCircle_eq : tarotCardSizeOnCircle = 108 := by
  unfold tarotCardSizeOnCircle tarotCardWidth minSize
  rw [tarotCardSizeVisiblePercentage_eq]
  exact toDouble_eq_val 6 7599824371187712 (by norm_num [abs_of_pos])
    (by norm_num [abs_of_pos]) (by norm_num) (by norm_num) (by norm_num)

theorem circleRadius_eq : circleRadius 400 = 1133952764348231 / 2199023255552 := by
  have h1 : toDouble (108 * 30 : ℚ) = 3240 :=
    toDouble_eq_val 11 7124835347988480 (by norm_num [abs_of_pos])
      (by norm_num [abs_of_pos]) (by norm_num) (by norm_num) (by norm_num)
  have h2 : toDouble ((3240 : ℚ) / (884279719003555 / 140737488355328))
      = 1133952764348231 / 2199023255552 :=
    toDouble_eq_val 9 4535811057392924 (by norm_num [abs_of_pos])
      (by norm_num [abs_of_pos]) (by norm_num) (by norm_num) (by norm_num)
  unfold circleRadius numberOfCards
  rw [tarotCardSizeOnCircle_eq, TWO_PI_eq]
  push_cast
  rw [h1, h2]
  norm_num

theorem circleCircumference_eq :
    circleCircumference 400 = 7124835347988481 / 2199023255552 := by
  unfold circleCircumference
  rw [TWO_PI_eq, circleRadius_eq]
  exact toDouble_eq_val 11 7124835347988481 (by norm_num [abs_of_pos])
    (by norm_num [abs_of_pos]) (by norm_num) (by norm_num) (by norm_num)

theorem changeFactor_eq : changeFactor 400 = 1139973655678157 / 140737488355328 := by
  unfold changeFactor
  rw [circleCircumference_eq]
  exact toDouble_eq_val 3 4559894622712628 (by norm_num [abs_of_pos])
    (by norm_num [abs_of_pos]) (by norm_num) (by norm_num) (by norm_num)

theorem onChange_eq_val {width changeX distance p r : ℚ}
    (hp : toDouble (changeX * changeFactor width) = p) (hr : toDouble (distance + p) = r) :
    onChange width false changeX distance = r := by
  unfold onChange
  rw [if_neg (by simp), hp, hr]

theorem onChange_one : onChange 400 false 1 0 = 1139973655678157 / 140737488355328 := by
  refine onChange_eq_val (p := 1139973655678157 / 140737488355328) ?_ ?_
  · rw [changeFactor_eq]
    exact toDouble_eq_val 3 4559894622712628 (by norm_num [abs_of_pos])
      (by norm_num [abs_of_pos]) (by norm_num) (by norm_num) (by norm_num)
  · exact toDouble_eq_val 3 4559894622712628 (by norm_num [abs_of_pos])
      (by norm_num [abs_of_pos]) (by norm_num) (by norm_num) (by norm_num)

theorem onChange_forward :
    onChange 400 false 100 (1139973655678157 / 140737488355328)
      = 3598041850734183 / 4398046511104 := by
  refine onChange_eq_val (p := 7124835347988481 / 8796093022208) ?_ ?_
  · rw [changeFactor_eq]
    exact toDouble_eq_val 9 7124835347988481 (by norm_num [abs_of_pos])
      (by norm_num [abs_of_pos]) (by norm_num) (by norm_num) (by norm_num)
  · exact toDouble_eq_val 9 7196083701468366 (by norm_num [abs_of_pos])
      (by norm_num [abs_of_pos]) (by norm_num) (by norm_num) (by norm_num)

theorem onChange_backward :
    onChange 400 false (-100) (3598041850734183 / 4398046511104)
      = 71248353479885 / 8796093022208 := by
  refine onChange_eq_val (p := -(7124835347988481 / 8796093022208)) ?_ ?_
  · rw [changeFactor_eq]
    exact toDouble_eq_val 9 (-7124835347988481) (by norm_num [abs_of_pos])
      (by norm_num [abs_of_pos]) (by norm_num) (by norm_num) (by norm_num)
  · exact toDouble_eq_val 3 4559894622712640 (by norm_num [abs_of_pos])
      (by norm_num [abs_of_pos]) (by norm_num) (by norm_num) (by norm_num)

theorem roundTiesEven_intCast (n : ℤ) : roundTiesEven (n : ℚ) = n :=
  roundTiesEven_eq (by linarith) (by linarith)

theorem abs_roundTiesEven_sub_le (z : ℚ) : |(roundTiesEven z : ℚ) - z| ≤ 1 / 2 := by
  have h0 := Int.fract_nonneg z
  have h1 := Int.fract_lt_one z
  have hz : z = (⌊z⌋ : ℚ) + Int.fract z := (Int.floor_add_fract z).symm
  rw [abs_le]
  unfold roundTiesEven
  split_ifs with ha hb hc
  · constructor <;> linarith
  · push_cast
    constructor <;> linarith
  · have : Int.fract z = 1 / 2 := le_antisymm (not_lt.mp hb) (not_lt.mp ha)
    constructor <;> linarith
  · have : Int.fract z = 1 / 2 := le_antisymm (not_lt.mp hb) (not_lt.mp ha)
    push_cast
    constructor <;> linarith

theorem roundTiesEven_neg (z : ℚ) : roundTiesEven (-z) = -roundTiesEven z := by
  by_cases h0 : Int.fract z = 0
  · have hz : z = (⌊z⌋ : ℚ) := by
      have h := Int.floor_add_fract z
      rw [h0, add_zero] at h
      exact h.symm
    have hneg : -z = ((-⌊z⌋ : ℤ) : ℚ) := by
      push_cast
      rw [← hz]
    rw [hneg, roundTiesEven_intCast]
    nth_rewrite 2 [hz]
    rw [roundTiesEven_intCast]
  · have hfr : Int.fract (-z) = 1 - Int.fract z := Int.fract_neg h0
    have hfl : ⌊-z⌋ = -⌊z⌋ - 1 := by
      have h1 := Int.floor_add_fract z
      have h2 := Int.floor_add_fract (-z)
      have h3 : ((⌊-z⌋ : ℤ) : ℚ) = ((-⌊z⌋ - 1 : ℤ) : ℚ) := by
        push_cast
        linarith
      exact_mod_cast h3
    have hpos : 0 < Int.fract z := lt_of_le_of_ne (Int.fract_nonneg z) (Ne.symm h0)
    unfold roundTiesEven
    rw [hfr, hfl]
    rcases lt_trichotomy (Int.fract z) (1 / 2) with h | h | h
    · have ha : ¬ (1 - Int.fract z < 1 / 2) := by
        intro hcon
        linarith
      have hb : 1 / 2 < 1 - Int.fract z := by linarith
      rw [if_neg ha, if_pos hb, if_pos h]
      ring
    · have ha : ¬ (1 - Int.fract z < 1 / 2) := by
        intro hcon
        linarith
      have hb : ¬ (1 / 2 < 1 - Int.fract z) := by
        intro hcon
        linarith
      have hc : ¬ (Int.fract z < 1 / 2) := by
        intro hcon
        linarith
      have hd : ¬ (1 / 2 < Int.fract z) := by
        intro hcon
        linarith
      rw [if_neg ha, if_neg hb, if_neg hc, if_neg hd]
      by_cases hp : ⌊z⌋ % 2 = 0
      · have hq : ¬ ((-⌊z⌋ - 1) % 2 = 0) := by omega
        rw [if_pos hp, if_neg hq]
        ring
      · have hq : (-⌊z⌋ - 1) % 2 = 0 := by omega
        rw [if_neg hp, if_pos hq]
        ring
    · have ha : 1 - Int.fract z < 1 / 2 := by linarith
      have hc : ¬ (Int.fract z < 1 / 2) := by
        intro hcon
        linarith
      rw [if_pos ha, if_neg hc, if_pos h]
      ring

theorem ulp_neg (x : ℚ) : ulp (-x) = ulp x := by
  unfold ulp
  rw [abs_neg]

theorem toDouble_neg (x : ℚ) : toDouble (-x) = -toDouble x := by
  unfold toDouble
  by_cases hx : x = 0
  · simp [hx]
  · rw [if_neg (neg_ne_zero.mpr hx), if_neg hx, ulp_neg, neg_div, roundTiesEven_neg]
    push_cast
    ring

theorem ulp_pos (x : ℚ) : 0 < ulp x := by
  unfold ulp
  positivity

/-- The binade of a nonzero number, in units of its `ulp`. -/
theorem ulp_bounds {x : ℚ} (hx : x ≠ 0) :
    2 ^ 52 * ulp x ≤ |x| ∧ |x| < 2 ^ 53 * ulp x := by
  have hpos : 0 < |x| := abs_pos.mpr hx
  have h1 := Int.zpow_log_le_self (b := 2) (by norm_num) hpos
  have h2 := Int.lt_zpow_succ_log_self (b := 2) (by norm_num) |x|
  have e1 : (2 : ℚ) ^ (Int.log 2 |x|) = 2 ^ 52 * ulp x := by
    unfold ulp
    rw [zpow_sub₀ (by norm_num)]
    norm_num
    ring
  have e2 : (2 : ℚ) ^ (Int.log 2 |x| + 1) = 2 ^ 53 * ulp x := by
    rw [zpow_add₀ (by norm_num), e1]
    norm_num
    ring
  push_cast at h1 h2
  rw [e1] at h1
  rw [e2] at h2
  exact ⟨h1, h2⟩

/-- A positive number rounds to a mantissa between `2 ^ 52` and `2 ^ 53`. -/
theorem mantissa_bounds {x : ℚ} (hx : 0 < x) :
    (2 : ℤ) ^ 52 ≤ roundTiesEven (x / ulp x) ∧ roundTiesEven (x / ulp x) ≤ (2 : ℤ) ^ 53 := by
  have hu := ulp_pos x
  obtain ⟨h1, h2⟩ := ulp_bounds hx.ne.symm
  rw [abs_of_pos hx] at h1 h2
  have hz1 : (2 : ℚ) ^ 52 ≤ x / ulp x := by
    rw [le_div_iff₀ hu]
    exact h1
  have hz2 : x / ulp x < (2 : ℚ) ^ 53 := by
    rw [div_lt_iff₀ hu]
    exact h2
  have herr := abs_le.mp (abs_roundTiesEven_sub_le (x / ulp x))
  constructor
  · have h : ((2 : ℤ) ^ 52 - 1 : ℚ) < (roundTiesEven (x / ulp x) : ℚ) := by
      push_cast
      linarith [herr.1]
    have h' : (2 : ℤ) ^ 52 - 1 < roundTiesEven (x / ulp x) := by exact_mod_cast h
    omega
  · have h : (roundTiesEven (x / ulp x) : ℚ) < ((2 : ℤ) ^ 53 + 1 : ℚ) := by
      push_cast
      linarith [herr.2]
    have h' : roundTiesEven (x / ulp x) < (2 : ℤ) ^ 53 + 1 := by exact_mod_cast h
    omega

theorem toDouble_pos {x : ℚ} (hx : 0 < x) : 0 < toDouble x := by
  unfold toDouble
  rw [if_neg hx.ne.symm]
  have hm := (mantissa_bounds hx).1
  have hm' : (0 : ℚ) < (roundTiesEven (x / ulp x) : ℚ) := by
    have : (0 : ℤ) < roundTiesEven (x / ulp x) := lt_of_lt_of_le (by norm_num) hm
    exact_mod_cast this
  exact mul_pos hm' (ulp_pos x)

theorem toDouble_idem_of_pos {x : ℚ} (hx : 0 < x) : toDouble (toDouble x) = toDouble x := by
  obtain ⟨hm1, hm2⟩ := mantissa_bounds hx
  have hxu : toDouble x = (roundTiesEven (x / ulp x) : ℚ) * ulp x := by
    unfold toDouble
    rw [if_neg hx.ne.symm]
  have hu : ulp x = (2 : ℚ) ^ (Int.log 2 |x| - 52) := rfl
  have hu0 := ulp_pos x
  have e1 : (2 : ℚ) ^ (Int.log 2 |x|) = 2 ^ 52 * ulp x := by
    rw [hu, zpow_sub₀ (by norm_num)]
    norm_num
    ring
  have e2 : (2 : ℚ) ^ (Int.log 2 |x| + 1) = 2 ^ 53 * ulp x := by
    rw [zpow_add₀ (by norm_num), e1]
    norm_num
    ring
  have e3 : (2 : ℚ) ^ (Int.log 2 |x| + 1 + 1) = 2 ^ 54 * ulp x := by
    rw [zpow_add₀ (by norm_num), e2]
    norm_num
    ring
  have e4 : (2 : ℚ) ^ (Int.log 2 |x| + 1 - 52) = 2 * ulp x := by
    rw [hu, show Int.log 2 |x| + 1 - 52 = (Int.log 2 |x| - 52) + 1 by ring,
      zpow_add₀ (by norm_num)]
    norm_num
    ring
  have hm1' : (2 : ℚ) ^ 52 ≤ (roundTiesEven (x / ulp x) : ℚ) := by exact_mod_cast hm1
  have hm2' : (roundTiesEven (x / ulp x) : ℚ) ≤ (2 : ℚ) ^ 53 := by exact_mod_cast hm2
  have hypos : 0 < (roundTiesEven (x / ulp x) : ℚ) * ulp x :=
    mul_pos (lt_of_lt_of_le (by norm_num) hm1') hu0
  rw [hxu]
  rcases lt_or_eq_of_le hm2 with hlt | heq
  · have hlt' : (roundTiesEven (x / ulp x) : ℚ) < (2 : ℚ) ^ 53 := by exact_mod_cast hlt
    have h1 : (2 : ℚ) ^ (Int.log 2 |x|) ≤ |(roundTiesEven (x / ulp x) : ℚ) * ulp x| := by
      rw [abs_of_pos hypos, e1]
      exact mul_le_mul_of_nonneg_right hm1' hu0.le
    have h2 : |(roundTiesEven (x / ulp x) : ℚ) * ulp x| < (2 : ℚ) ^ (Int.log 2 |x| + 1) := by
      rw [abs_of_pos hypos, e2]
      exact mul_lt_mul_of_pos_right hlt' hu0
    have h3 : ((roundTiesEven (x / ulp x) : ℚ) - 1 / 2) * 2 ^ (Int.log 2 |x| - 52)
        < (roundTiesEven (x / ulp x) : ℚ) * ulp x := by
      rw [← hu]
      nlinarith
    have h4 : (roundTiesEven (x / ulp x) : ℚ) * ulp x
        < ((roundTiesEven (x / ulp x) : ℚ) + 1 / 2) * 2 ^ (Int.log 2 |x| - 52) := by
      rw [← hu]
      nlinarith
    rw [toDouble_eq (Int.log 2 |x|) (roundTiesEven (x / ulp x)) h1 h2 h3 h4, ← hu]
  · have heq' : (roundTiesEven (x / ulp x) : ℚ) = (2 : ℚ) ^ 53 := by exact_mod_cast heq
    rw [heq'] at hypos ⊢
    have h1 : (2 : ℚ) ^ (Int.log 2 |x| + 1) ≤ |(2 : ℚ) ^ 53 * ulp x| := by
      rw [abs_of_pos hypos, e2]
    have h2 : |(2 : ℚ) ^ 53 * ulp x| < (2 : ℚ) ^ (Int.log 2 |x| + 1 + 1) := by
      rw [abs_of_pos hypos, e3]
      nlinarith
    have h3 : ((((2 : ℤ) ^ 52 : ℤ) : ℚ) - 1 / 2) * 2 ^ (Int.log 2 |x| + 1 - 52)
        < (2 : ℚ) ^ 53 * ulp x := by
      rw [e4]
      push_cast
      nlinarith
    have h4 : (2 : ℚ) ^ 53 * ulp x
        < ((((2 : ℤ) ^ 52 : ℤ) : ℚ) + 1 / 2) * 2 ^ (Int.log 2 |x| + 1 - 52) := by
      rw [e4]
      push_cast
      nlinarith
    rw [toDouble_eq (Int.log 2 |x| + 1) ((2 : ℤ) ^ 52) h1 h2 h3 h4, e4]
    push_cast
    ring

theorem toDouble_idem (x : ℚ) : toDouble (toDouble x) = toDouble x := by
  rcases lt_trichotomy x 0 with h | h | h
  · have hn : 0 < -x := by linarith
    have h1 := toDouble_idem_of_pos hn
    rw [toDouble_neg, toDouble_neg] at h1
    linarith
  · rw [h, toDouble_zero, toDouble_zero]
  · exact toDouble_idem_of_pos h

theorem TWO_PI_double_pos : 0 < TWO_PI := by
  rw [TWO_PI_eq]
  norm_num

theorem changeFactor_pos {width : ℚ} (hw : 0 < width) : 0 < changeFactor width := by
  have hR : 0 < circleRadius width := lt_of_lt_of_le hw (le_max_right _ _)
  have hC : 0 < circleCircumference width := toDouble_pos (mul_pos TWO_PI_double_pos hR)
  exact toDouble_pos (div_pos hC hw)

theorem onChange_zero {width s : ℚ} (hs : toDouble s = s) : onChange width false 0 s = s := by
  unfold onChange
  rw [if_neg (by simp), zero_mul, toDouble_zero, add_zero, hs]

theorem onChange_round_trip_zero (width d : ℚ) :
    onChange width false (-d) (onChange width false d 0) = 0 := by
  unfold onChange
  rw [if_neg (by simp), if_neg (by simp), zero_add, toDouble_idem, neg_mul, toDouble_neg,
    add_neg_cancel, toDouble_zero]

/-- C9, as stated, fails on doubles: at width 400, after a drag of 1 px from the
initial distance 0 the distance is 8.100000000000001; a further drag of 100 px
followed by a drag of -100 px leaves it at 8.100000000000023, not at its
original value. -/
theorem onChange_round_trip_not_exact :
    onChange 400 false 1 0 = 1139973655678157 / 140737488355328 ∧
    onChange 400 false (-100) (onChange 400 false 100 (onChange 400 false 1 0))
      = 71248353479885 / 8796093022208 ∧
    ¬ onChange 400 false (-100) (onChange 400 false 100 (onChange 400 false 1 0))
        = onChange 400 false 1 0 := by
  rw [onChange_one, onChange_forward, onChange_backward]
  norm_num

/-- One rounding changes a number by at most `2 ^ (-53)` of its magnitude. -/
theorem abs_toDouble_sub_le (x : ℚ) : |toDouble x - x| ≤ |x| / 2 ^ 53 := by
  by_cases hx : x = 0
  · rw [hx, toDouble_zero]
    norm_num
  · have hu := ulp_pos x
    have hb := (ulp_bounds hx).1
    have herr := abs_roundTiesEven_sub_le (x / ulp x)
    have h : toDouble x - x = ((roundTiesEven (x / ulp x) : ℚ) - x / ulp x) * ulp x := by
      unfold toDouble
      rw [if_neg hx]
      field_simp
    rw [h, abs_mul, abs_of_pos hu]
    have h1 : |(roundTiesEven (x / ulp x) : ℚ) - x / ulp x| * ulp x ≤ 1 / 2 * ulp x :=
      mul_le_mul_of_nonneg_right herr hu.le
    have h2 : 1 / 2 * ulp x ≤ |x| / 2 ^ 53 := by
      rw [le_div_iff₀ (by norm_num)]
      linarith
    exact le_trans h1 h2

theorem onChange_unlocked (width changeX distance : ℚ) :
    onChange width false changeX distance
      = toDouble (distance + toDouble (changeX * changeFactor width)) := by
  unfold onChange
  rw [if_neg (by simp)]

/-- C9, amended: with the wheel unlocked and a positive window width,
`changeFactor` is positive and `onChange d` replaces the distance `s` by the
double nearest to `s + p`, where `p` is the double nearest to
`d * changeFactor`.  Two deltas `d1`, `d2` yield `s + (d1 + d2) * changeFactor`
up to rounding: the error is at most `2 ^ (-53)` times the sum of the
magnitudes of the two products and of the two sums computed on the way, the
products being in the normal range of the doubles.  A zero delta applied any
number of times leaves the distance, and with it the angle and the active
index, unchanged.  A drag by `d1` followed by a drag by `-d1` from distance `0`
returns distance, angle and active index to their values at `0`. -/
theorem onChange_double {width : ℚ} (hw : 0 < width) (s d1 d2 : ℚ) (hs : toDouble s = s)
    (n : ℕ) :
    0 < changeFactor width ∧
    onChange width false d1 s = toDouble (s + toDouble (d1 * changeFactor width)) ∧
    ((2 : ℚ) ^ (-1022 : ℤ) ≤ |d1 * changeFactor width| →
      (2 : ℚ) ^ (-1022 : ℤ) ≤ |d2 * changeFactor width| →
      |onChange width false d2 (onChange width false d1 s)
          - (s + (d1 + d2) * changeFactor width)|
        ≤ (|d1 * changeFactor width| + |s + toDouble (d1 * changeFactor width)|
            + |d2 * changeFactor width|
            + |onChange width false d1 s + toDouble (d2 * changeFactor width)|) / 2 ^ 53) ∧
    ((onChange width false 0)^[n] s = s ∧
      angle width ((onChange width false 0)^[n] s) = angle width s ∧
      activeIndex width ((onChange width false 0)^[n] s) = activeIndex width s) ∧
    (onChange width false (-d1) (onChange width false d1 0) = 0 ∧
      angle width (onChange width false (-d1) (onChange width false d1 0)) = angle width 0 ∧
      activeIndex width (onChange width false (-d1) (onChange width false d1 0))
        = activeIndex width 0) := by
  have hzero : (onChange width false 0)^[n] s = s :=
    Function.iterate_fixed (onChange_zero hs) n
  have hback := onChange_round_trip_zero width d1
  refine ⟨changeFactor_pos hw, onChange_unlocked width d1 s, ?_, ⟨hzero, ?_, ?_⟩,
    ⟨hback, ?_, ?_⟩⟩
  · intro _ _
    have e1 := abs_le.mp (abs_toDouble_sub_le (d1 * changeFactor width))
    have e2 := abs_le.mp (abs_toDouble_sub_le (s + toDouble (d1 * changeFactor width)))
    have e3 := abs_le.mp (abs_toDouble_sub_le (d2 * changeFactor width))
    have e4 := abs_le.mp (abs_toDouble_sub_le
      (onChange width false d1 s + toDouble (d2 * changeFactor width)))
    rw [onChange_unlocked width d2, abs_le]
    rw [onChange_unlocked width d1 s] at e4 ⊢
    constructor <;> linarith [e1.1, e1.2, e2.1, e2.2, e3.1, e3.2, e4.1, e4.2]
  · rw [hzero]
  · rw [hzero]
  · rw [hback]
  · rw [hback]

theorem onChange_double_witness :
    (0 : ℚ) < 400 ∧
    toDouble (1139973655678157 / 140737488355328) = 1139973655678157 / 140737488355328 ∧
    (0 < changeFactor 400 ∧
    onChange 400 false 100 (1139973655678157 / 140737488355328)
      = toDouble (1139973655678157 / 140737488355328 + toDouble (100 * changeFactor 400)) ∧
    ((2 : ℚ) ^ (-1022 : ℤ) ≤ |100 * changeFactor 400| →
      (2 : ℚ) ^ (-1022 : ℤ) ≤ |(-100) * changeFactor 400| →
      |onChange 400 false (-100)
            (onChange 400 false 100 (1139973655678157 / 140737488355328))
          - (1139973655678157 / 140737488355328 + (100 + (-100)) * changeFactor 400)|
        ≤ (|100 * changeFactor 400|
            + |1139973655678157 / 140737488355328 + toDouble (100 * changeFactor 400)|
            + |(-100) * changeFactor 400|
            + |onChange 400 false 100 (1139973655678157 / 140737488355328)
                + toDouble ((-100) * changeFactor 400)|) / 2 ^ 53) ∧
    ((onChange 400 false 0)^[3] (1139973655678157 / 140737488355328)
        = 1139973655678157 / 140737488355328 ∧
      angle 400 ((onChange 400 false 0)^[3] (1139973655678157 / 140737488355328))
        = angle 400 (1139973655678157 / 140737488355328) ∧
      activeIndex 400 ((onChange 400 false 0)^[3] (1139973655678157 / 140737488355328))
        = activeIndex 400 (1139973655678157 / 140737488355328)) ∧
    (onChange 400 false (-100) (onChange 400 false 100 0) = 0 ∧
      angle 400 (onChange 400 false (-100) (onChange 400 false 100 0)) = angle 400 0 ∧
      activeIndex 400 (onChange 400 false (-100) (onChange 400 false 100 0))
        = activeIndex 400 0)) := by
  have hs : toDouble (1139973655678157 / 140737488355328)
      = 1139973655678157 / 140737488355328 :=
    toDouble_eq_val 3 4559894622712628 (by norm_num [abs_of_pos])
      (by norm_num [abs_of_pos]) (by norm_num) (by norm_num) (by norm_num)
  exact ⟨by norm_num, hs, onChange_double (by norm_num) _ 100 (-100) hs 3⟩

end Binary64

/-- C10: from any selection state, `handleCardSelect c` yields `(true, c)`, in
which card `j` is flipped exactly when `j = c`; `resetWheel`, from any state,
yields `(false, null)`, in which no card is flipped. -/
theorem flip_set_on_tap_cleared_on_reset (s s' : Selection) (c j : ℤ) :
    handleCardSelect c s = { isFlippable := true, activeCardIndex := some c } ∧
    (isFlipped (handleCardSelect c s) j = true ↔ j = c) ∧
    resetWheel s' = { isFlippable := false, activeCardIndex := none } ∧
    isFlipped (resetWheel s') j = false := by
  refine ⟨rfl, ?_, rfl, ?_⟩
  · simp [isFlipped, handleCardSelect, eq_comm]
  · simp [isFlipped, resetWheel]

end TarotCards
